import Mathlib

/-!
Verification of the vanadinite microkernel core against its specification.

The development shallowly embeds the Rust sources:
* `src/shared/librust/src/capabilities.rs` — `CapabilityRights`
* `src/shared/librust/src/syscalls/mem.rs` — `MemoryPermissions`
* `src/vanadinite/src/trap.rs` — `Trap`, `Registers`, `trap_handler` branches
* `src/vanadinite/src/mem/manager/address_map.rs` — `AddressMap`

Machine integers (`usize` on the RV64 target) are embedded as `Nat` with
explicit 2^64 bounds where overflow or bitwise complement matters.  Fallible
or panicking code paths are embedded as explicit result types with an
`err` and a `crash` constructor (`crash` models a Rust `panic!`, including
a failed `.unwrap()`).
-/

namespace Vanadinite

/-! ## Capability rights (`capabilities.rs`) -/

/-- Size of the `usize` machine-word universe on the RV64 target. -/
def USIZE : Nat := 2 ^ 64

/-- `usize::MAX`, the all-ones 64-bit word. -/
def USIZE_MAX : Nat := 2 ^ 64 - 1

namespace CapabilityRights

/-- `CapabilityRights::READ` from `capabilities.rs`. -/
def READ : Nat := 1

/-- `CapabilityRights::WRITE` from `capabilities.rs`. -/
def WRITE : Nat := 2

/-- `CapabilityRights::EXECUTE` from `capabilities.rs`. -/
def EXECUTE : Nat := 4

/-- `CapabilityRights::GRANT` from `capabilities.rs`. -/
def GRANT : Nat := 8

/-- `CapabilityRights::new(value)`: masks to the defined bits (`value & 0xF`). -/
def new (value : Nat) : Nat := value &&& 0xF

/-- `CapabilityRights::is_superset` from `capabilities.rs`:
`(self.0 | !other.0) == usize::MAX`.  The bitwise complement `!other`
on `usize` is embedded as xor against the all-ones word. -/
def is_superset (self other : Nat) : Bool :=
  (self ||| (USIZE_MAX ^^^ other)) == USIZE_MAX

end CapabilityRights

/-! ## Memory permissions (`syscalls/mem.rs`) -/

namespace MemoryPermissions

/-- `MemoryPermissions::READ = Self(0)` from `syscalls/mem.rs`. -/
def READ : Nat := 0

/-- `MemoryPermissions::WRITE = Self(1)` from `syscalls/mem.rs`. -/
def WRITE : Nat := 1

/-- `MemoryPermissions::EXECUTE = Self(2)` from `syscalls/mem.rs`. -/
def EXECUTE : Nat := 2

/-- The `BitAnd` impl for `MemoryPermissions`: `self.0 & rhs.0 == rhs.0`,
a boolean containment test rather than a mask. -/
def bitand (self rhs : Nat) : Bool := (self &&& rhs) == rhs

end MemoryPermissions

/-! ## Trap cause decoding (`trap.rs`) -/

/-- The `Trap` enum from `trap.rs`. -/
inductive Trap where
  | UserSoftwareInterrupt
  | SupervisorSoftwareInterrupt
  | MachineSoftwareInterrupt
  | UserTimerInterrupt
  | SupervisorTimerInterrupt
  | MachineTimerInterrupt
  | UserExternalInterrupt
  | SupervisorExternalInterrupt
  | MachineExternalInterrupt
  | InstructionAddressMisaligned
  | InstructionAccessFault
  | IllegalInstruction
  | Breakpoint
  | LoadAddressMisaligned
  | LoadAccessFault
  | StoreAddressMisaligned
  | StoreAccessFault
  | UserModeEnvironmentCall
  | SupervisorModeEnvironmentCall
  | MachineModeEnvironmentCall
  | InstructionPageFault
  | LoadPageFault
  | StorePageFault
  | Reserved
deriving DecidableEq, Repr

/-- `Trap::from_cause` from `trap.rs`: decodes a raw `scause` value.  The
Rust `match` on integer literals is embedded as the equivalent chain of
equality tests, first match wins. -/
def Trap.from_cause (cause : Nat) : Trap :=
  if cause = 0x8000000000000000 then .UserSoftwareInterrupt
  else if cause = 0x8000000000000001 then .SupervisorSoftwareInterrupt
  else if cause = 0x8000000000000003 then .MachineSoftwareInterrupt
  else if cause = 0x8000000000000004 then .UserTimerInterrupt
  else if cause = 0x8000000000000005 then .SupervisorTimerInterrupt
  else if cause = 0x8000000000000007 then .MachineTimerInterrupt
  else if cause = 0x8000000000000008 then .UserExternalInterrupt
  else if cause = 0x8000000000000009 then .SupervisorExternalInterrupt
  else if cause = 0x800000000000000B then .MachineExternalInterrupt
  else if cause = 0 then .InstructionAddressMisaligned
  else if cause = 1 then .InstructionAccessFault
  else if cause = 2 then .IllegalInstruction
  else if cause = 3 then .Breakpoint
  else if cause = 4 then .LoadAddressMisaligned
  else if cause = 5 then .LoadAccessFault
  else if cause = 6 then .StoreAddressMisaligned
  else if cause = 7 then .StoreAccessFault
  else if cause = 8 then .UserModeEnvironmentCall
  else if cause = 9 then .SupervisorModeEnvironmentCall
  else if cause = 11 then .MachineModeEnvironmentCall
  else if cause = 12 then .InstructionPageFault
  else if cause = 13 then .LoadPageFault
  else if cause = 15 then .StorePageFault
  else .Reserved

/-- The cause values that `Trap::from_cause` recognizes: the nine interrupt
codes (top bit set) and the synchronous codes 0-9, 11, 12, 13, 15. -/
def definedCauseCodes : List Nat :=
  [0x8000000000000000, 0x8000000000000001, 0x8000000000000003,
   0x8000000000000004, 0x8000000000000005, 0x8000000000000007,
   0x8000000000000008, 0x8000000000000009, 0x800000000000000B,
   0, 1, 2, 3, 4, 5, 6, 7, 8, 9, 11, 12, 13, 15]

/-! ## Address map (`mem/manager/address_map.rs`)

`BTreeMap<VirtualAddress, AddressRegion>` is embedded as an association
list sorted by strictly increasing key; `range(k..).next()` is the first
entry with key ≥ `k`, `insert` replaces an existing key, `remove` deletes
the entry with the given key (returning it).  Virtual addresses are `Nat`
and a `Range<VirtualAddress>` is a `VRange`. -/

/-- A `Range<VirtualAddress>`: half-open span `[start, stop)`. -/
structure VRange where
  start : Nat
  stop : Nat
deriving DecidableEq, Repr

/-- `MemoryRegion` (defined in `mem/region.rs`, outside the excerpt) is
carried through `AddressMap` opaquely; an identifier suffices. -/
abbrev MemoryRegion := Nat

/-- The `AddressRegionKind` enum from `address_map.rs`. -/
inductive AddressRegionKind where
  | channel | data | guard | readOnly | stack | text | tls | unoccupied | userAllocated
deriving DecidableEq, Repr

/-- The `AddressRegion` struct from `address_map.rs`: `region = none`
means the span is unoccupied. -/
structure AddressRegion where
  region : Option MemoryRegion
  span : VRange
  kind : AddressRegionKind
deriving DecidableEq, Repr

/-- `AddressRegion::is_unoccupied`. -/
def AddressRegion.is_unoccupied (r : AddressRegion) : Bool := r.region.isNone

/-- The underlying `BTreeMap<VirtualAddress, AddressRegion>`. -/
abbrev RegionMap := List (Nat × AddressRegion)

/-- `map.range(k..).next()`: first entry with key ≥ `k` (the list is kept
sorted by key, so this is the entry with the smallest such key). -/
def firstGe : RegionMap → Nat → Option (Nat × AddressRegion)
  | [], _ => none
  | e :: rest, k => if k ≤ e.1 then some e else firstGe rest k

/-- `map.remove(&k)`: removes and returns the entry with key `k`. -/
def removeTake : RegionMap → Nat → Option (AddressRegion × RegionMap)
  | [], _ => none
  | e :: rest, k =>
    if e.1 = k then some (e.2, rest)
    else
      match removeTake rest k with
      | none => none
      | some (v, rest2) => some (v, e :: rest2)

/-- `map.insert(k, v)`: sorted insert, replacing an entry with equal key. -/
def insertKV : RegionMap → Nat → AddressRegion → RegionMap
  | [], k, v => [(k, v)]
  | e :: rest, k, v =>
    if k < e.1 then (k, v) :: e :: rest
    else if k = e.1 then (k, v) :: rest
    else e :: insertKV rest k v

/-- The `AddressMap` struct from `address_map.rs`. -/
structure AddressMap where
  map : RegionMap
deriving DecidableEq, Repr

/-- Result of `AddressMap::alloc` (`Result<(), ()>` plus the map state,
with `crash` modelling a Rust panic, e.g. a failed `.unwrap()`). -/
inductive AllocResult where
  | ok (m : AddressMap)
  | err (m : AddressMap)
  | crash
deriving DecidableEq, Repr

/-- Result of `AddressMap::free` (`Result<MemoryRegion, ()>` plus the map
state, with `crash` modelling a Rust panic). -/
inductive FreeResult where
  | ok (backing : MemoryRegion) (m : AddressMap)
  | err (m : AddressMap)
  | crash
deriving DecidableEq, Repr

/-- Modelled from the spec: `VirtualAddress::userspace_range` (defined in
the `mem` module outside the excerpt).  The spec fixes only that it is the
full userspace range, a single proper span; for the RV64 Sv39 target the
user half of the address space is `[0, 2^38)`. -/
def userspace_range : VRange := ⟨0, 0x4000000000⟩

/-- `AddressMap::new`, generalized over the complete range it is handed
(the source always passes `VirtualAddress::userspace_range()`). -/
def AddressMap.mkNew (complete_range : VRange) : AddressMap :=
  ⟨insertKV [] complete_range.stop ⟨none, complete_range, .unoccupied⟩⟩

/-- `AddressMap::new` exactly as in the source. -/
def AddressMap.new : AddressMap := AddressMap.mkNew userspace_range

/-- `AddressMap::alloc` from `address_map.rs`, embedded step for step:
find the first region whose key (span end) is ≥ `subrange.end`; reject if
it does not contain `subrange` or is occupied; otherwise remove it and
insert the split pieces. -/
def AddressMap.alloc (self : AddressMap) (subrange : VRange) (backing : MemoryRegion)
    (kind : AddressRegionKind) : AllocResult :=
  match firstGe self.map subrange.stop with
  | none => .err self
  | some (key, r) =>
    if r.span.start > subrange.start ∨ r.span.stop < subrange.stop ∨ r.region.isSome then
      .err self
    else
      match removeTake self.map key with
      | none => .crash
      | some (old_range, m1) =>
        match old_range.span.start == subrange.start, old_range.span.stop == subrange.stop with
        | true, false =>
          let old2 : AddressRegion := { old_range with span := ⟨subrange.stop, old_range.span.stop⟩ }
          .ok ⟨insertKV (insertKV m1 old2.span.stop old2) subrange.stop
                ⟨some backing, subrange, kind⟩⟩
        | false, true =>
          let old2 : AddressRegion := { old_range with span := ⟨old_range.span.start, subrange.start⟩ }
          .ok ⟨insertKV (insertKV m1 old2.span.stop old2) subrange.stop
                ⟨some backing, subrange, kind⟩⟩
        | true, true =>
          .ok ⟨insertKV m1 subrange.stop ⟨some backing, subrange, kind⟩⟩
        | false, false =>
          let before : AddressRegion := ⟨none, ⟨old_range.span.start, subrange.start⟩, .unoccupied⟩
          let active : AddressRegion := ⟨some backing, subrange, kind⟩
          let after : AddressRegion := ⟨none, ⟨subrange.stop, old_range.span.stop⟩, .unoccupied⟩
          .ok ⟨insertKV (insertKV (insertKV m1 before.span.stop before)
                active.span.stop active) after.span.stop after⟩

/-- Helper for the length argument of the coalescing loops. -/
theorem removeTake_length {m : RegionMap} {k : Nat} {v : AddressRegion} {m2 : RegionMap}
    (h : removeTake m k = some (v, m2)) : m2.length < m.length := by
  induction m generalizing v m2 with
  | nil => simp [removeTake] at h
  | cons e rest ih =>
    simp only [removeTake] at h
    by_cases he : e.1 = k
    · rw [if_pos he] at h
      simp only [Option.some.injEq, Prod.mk.injEq] at h
      rw [← h.2]
      simp
    · rw [if_neg he] at h
      cases hrec : removeTake rest k with
      | none => rw [hrec] at h; simp at h
      | some p =>
        obtain ⟨v2, rest2⟩ := p
        rw [hrec] at h
        simp only [Option.some.injEq, Prod.mk.injEq] at h
        have hlen := ih hrec
        rw [← h.2]
        simp only [List.length_cons]
        omega

/-- The first coalescing loop of `AddressMap::free`: while the first
region at or past `sp.start` is unoccupied, remove the entry keyed
`sp.start` (panicking — `none` — if there is no such entry) and extend
the span leftward. -/
def coalesceLeft (m : RegionMap) (sp : VRange) : Option (RegionMap × VRange) :=
  match firstGe m sp.start with
  | some (_, reg) =>
    if reg.region.isNone then
      match hrm : removeTake m sp.start with
      | none => none
      | some (removed, m2) => coalesceLeft m2 ⟨removed.span.start, sp.stop⟩
    else some (m, sp)
  | none => some (m, sp)
termination_by m.length
decreasing_by exact removeTake_length hrm

/-- The second coalescing loop of `AddressMap::free`: while the first
region with key ≥ `sp.stop + 1` is unoccupied, remove it (at its own key)
and extend the span rightward.  `VirtualAddress::offset(1)` (outside the
excerpt) is address arithmetic, embedded as `+ 1` on `Nat`. -/
def coalesceRight (m : RegionMap) (sp : VRange) : Option (RegionMap × VRange) :=
  match firstGe m (sp.stop + 1) with
  | some (key, reg) =>
    if reg.region.isNone then
      match hrm : removeTake m key with
      | none => none
      | some (removed, m2) => coalesceRight m2 ⟨sp.start, removed.span.stop⟩
    else some (m, sp)
  | none => some (m, sp)
termination_by m.length
decreasing_by exact removeTake_length hrm

/-- `AddressMap::free` from `address_map.rs`, embedded step for step:
require an exact occupied match at the first region with key ≥
`range.end`, remove it, run both coalescing loops, take the backing out
and reinsert the (now unoccupied) widened region keyed by its span end. -/
def AddressMap.free (self : AddressMap) (range : VRange) : FreeResult :=
  match firstGe self.map range.stop with
  | none => .err self
  | some (_, curr) =>
    if curr.span.start ≠ range.start ∨ curr.span.stop ≠ range.stop ∨ curr.region.isNone then
      .err self
    else
      match removeTake self.map range.stop with
      | none => .crash
      | some (freed, m1) =>
        match coalesceLeft m1 freed.span with
        | none => .crash
        | some (m2, sp2) =>
          match coalesceRight m2 sp2 with
          | none => .crash
          | some (m3, sp3) =>
            match freed.region with
            | none => .crash
            | some ret =>
              .ok ret ⟨insertKV m3 sp3.stop { freed with region := none, span := sp3 }⟩

/-- `AddressMap::find` from `address_map.rs`:
`self.map.range(address..).next().map(|(_, r)| r)`. -/
def AddressMap.find (self : AddressMap) (address : Nat) : Option AddressRegion :=
  (firstGe self.map address).map (·.2)

/-! ## Concrete address-map states -/

/-- The map produced by allocating `[0x1000, 0x3000)` as Stack out of a
fresh `AddressMap`: the spec's round-trip scenario, one occupied region
between two unoccupied neighbors. -/
def allocScenarioMap : AddressMap :=
  ⟨[(0x1000, ⟨none, ⟨0x0, 0x1000⟩, .unoccupied⟩),
    (0x3000, ⟨some 7, ⟨0x1000, 0x3000⟩, .stack⟩),
    (0x4000000000, ⟨none, ⟨0x3000, 0x4000000000⟩, .unoccupied⟩)]⟩

/-- The map produced by allocating the empty range `[0x10, 0x10)` out of a
fresh `AddressMap`: the `(false, false)` split inserts the leading
remainder and the active region under the same key `0x10`, so the second
insert replaces the first and the leading addresses vanish from the map. -/
def emptyAllocMap : AddressMap :=
  ⟨[(0x10, ⟨some 1, ⟨0x10, 0x10⟩, .data⟩),
    (0x4000000000, ⟨none, ⟨0x10, 0x4000000000⟩, .unoccupied⟩)]⟩

/-- Does some region of the map contain address `a` (spans half-open)? -/
def coversAddr (m : AddressMap) (a : Nat) : Bool :=
  m.map.any fun e => decide (e.2.span.start ≤ a) && decide (a < e.2.span.stop)

/-! ## Trap handler (`trap.rs`): register frame, tasks, dispatch branches -/

/-- The `Registers` struct from `trap.rs` (general-purpose registers). -/
structure Registers where
  (ra sp gp tp t0 t1 t2 s0 s1 : Nat)
  (a0 a1 a2 a3 a4 a5 a6 a7 : Nat)
  (s2 s3 s4 s5 s6 s7 s8 s9 s10 s11 : Nat)
  (t3 t4 t5 t6 : Nat)
deriving DecidableEq, Repr

/-- The `FloatingPointRegisters` struct from `trap.rs`. -/
structure FloatingPointRegisters where
  (f0 f1 f2 f3 f4 f5 f6 f7 f8 f9 f10 f11 f12 f13 f14 f15 : Nat)
  (f16 f17 f18 f19 f20 f21 f22 f23 f24 f25 f26 f27 f28 f29 f30 f31 : Nat)
  (fscr : Nat)
deriving DecidableEq, Repr

/-- The `TrapFrame` struct from `trap.rs`. -/
structure TrapFrame where
  registers : Registers
  fp_registers : FloatingPointRegisters
deriving DecidableEq, Repr

/-- Modelled from the spec: `TaskState` (defined in the `task` module
outside the excerpt).  The spec only uses the `Dead` state ("termination
is modeled as an explicit state transition to Dead"), so the model keeps
`dead` plus a single live state. -/
inductive TaskState where
  | running
  | dead
deriving DecidableEq, Repr

/-- The `Context` struct (defined in the `task` module outside the
excerpt); its fields `pc`, `gp_regs`, `fp_regs` are visible at the
construction sites in `trap.rs`. -/
structure Context where
  pc : Nat
  gp_regs : Registers
  fp_regs : FloatingPointRegisters
deriving DecidableEq, Repr

/-- Modelled from the spec: the task's `MemoryManager` (outside the
excerpt) as far as the page-fault path observes it — a partial map from
page-aligned virtual addresses to page-table-entry flag bits. -/
abbrev MemoryManager := List (Nat × Nat)

/-- Modelled from the spec: the subset of `Task` (outside the excerpt)
that `trap_handler` reads and writes: state flag, saved `Context`, and
the memory manager. -/
structure Task where
  state : TaskState
  context : Context
  memory_manager : MemoryManager
deriving DecidableEq, Repr

namespace flags

/-- Modelled from the spec: the `flags::ACCESSED` page-table-entry bit
(the `flags` module is outside the excerpt); bit 6 per the RISC-V Sv39
encoding the spec's cause-code contract refers to. -/
def ACCESSED : Nat := 64

/-- Modelled from the spec: the `flags::DIRTY` page-table-entry bit,
bit 7 per the RISC-V Sv39 encoding. -/
def DIRTY : Nat := 128

end flags

/-- Modelled from the spec: `VirtualAddress::is_kernel_region` (outside
the excerpt).  The kernel half of the Sv39 address space starts at
`0xFFFFFFC000000000`, the boundary `copy_kernel_pages` in
`mem/paging/manager.rs` uses. -/
def is_kernel_region (a : Nat) : Bool := decide (0xFFFFFFC000000000 ≤ a)

/-- Page-aligned base of an address (4 KiB pages). -/
def pageBase (a : Nat) : Nat := a / 4096 * 4096

/-- Flags of the page mapping covering `addr`, if any. -/
def lookupPage : MemoryManager → Nat → Option Nat
  | [], _ => none
  | (p, fl) :: rest, addr => if p = pageBase addr then some fl else lookupPage rest addr

/-- Replace the flags of the page mapping covering `addr` (no-op when
unmapped). -/
def writePage : MemoryManager → Nat → Nat → MemoryManager
  | [], _, _ => []
  | (p, fl) :: rest, addr, nf =>
    if p = pageBase addr then (p, nf) :: rest else (p, fl) :: writePage rest addr nf

/-- Modelled from the spec: `MemoryManager::modify_page_flags` (outside
the excerpt): look up the leaf entry for the address; if present rewrite
its flag bits through `f` and report `true`, otherwise report `false`
and change nothing. -/
def modify_page_flags : MemoryManager → Nat → (Nat → Nat) → Bool × MemoryManager
  | [], _, _ => (false, [])
  | (p, fl) :: rest, addr, f =>
    if p = pageBase addr then (true, (p, f fl) :: rest)
    else
      let r := modify_page_flags rest addr f
      (r.1, (p, fl) :: r.2)

/-- The `Trap::UserModeEnvironmentCall` branch of `trap_handler`.  The
syscall implementations `exit`, `print`, `read_stdin` live outside this
branch (and `exit`/`read_stdin` outside the excerpt), so they are
parameters; `read_stdin` receives the register frame mutably.  The branch
dispatches on `a0`, marks the task dead on an unknown number, then
persists `Context { pc: sepc + 4, gp_regs, fp_regs }` (with `+` the
wrapping `usize` addition) before handing off to the scheduler. -/
def trap_handler_user_ecall
    (exitFn : Task → Task)
    (printFn : Task → Nat → Nat → Nat → Task)
    (readStdinFn : Task → Nat → Nat → TrapFrame → Task × TrapFrame)
    (active_task : Task) (regs : TrapFrame) (sepc : Nat) : Task × TrapFrame :=
  let step : Task × TrapFrame :=
    if regs.registers.a0 = 0 then (exitFn active_task, regs)
    else if regs.registers.a0 = 1 then
      (printFn active_task regs.registers.a1 regs.registers.a2 regs.registers.a3, regs)
    else if regs.registers.a0 = 2 then
      readStdinFn active_task regs.registers.a1 regs.registers.a2 regs
    else ({ active_task with state := .dead }, regs)
  ({ step.1 with
      context := ⟨(sepc + 4) % USIZE, step.2.registers, step.2.fp_registers⟩ }, step.2)

/-- Outcome of the page-fault branch of `trap_handler`. -/
inductive PageFaultOutcome where
  /-- `panic!("[KERNEL BUG] ...")` for a fault in the kernel region. -/
  | kernelBug
  /-- Flag update succeeded: `sfence(Some(stval), None)` and resume the
  same instruction, no reschedule. -/
  | repaired (task : Task) (invalidated : Nat)
  /-- Address was never mapped: task marked `Dead`, reschedule. -/
  | killed (task : Task)
  /-- The `unreachable!()` arm (not a page-fault cause). -/
  | unreachableArm
deriving DecidableEq, Repr

/-- The page-fault branch of `trap_handler` (`Trap::LoadPageFault |
Trap::StorePageFault | Trap::InstructionPageFault`), embedded step for
step from `trap.rs`. -/
def trap_handler_page_fault (trap_kind : Trap) (active_task : Task) (stval : Nat) :
    PageFaultOutcome :=
  if is_kernel_region stval then .kernelBug
  else
    let upd : Option (Nat → Nat) :=
      match trap_kind with
      | .LoadPageFault | .InstructionPageFault => some (fun f => f ||| flags.ACCESSED)
      | .StorePageFault => some (fun f => f ||| flags.ACCESSED ||| flags.DIRTY)
      | _ => none
    match upd with
    | none => .unreachableArm
    | some f =>
      let res := modify_page_flags active_task.memory_manager stval f
      match res.1 with
      | true => .repaired { active_task with memory_manager := res.2 } stval
      | false => .killed { active_task with state := .dead }

/-- A concrete all-zero register frame for the witnesses. -/
def regs0 : Registers := ⟨0,0,0,0,0,0,0,0,0,0,0,0,0,0,0,0,0,0,0,0,0,0,0,0,0,0,0,0,0,0,0⟩

/-- A concrete all-zero floating-point register frame. -/
def fpregs0 : FloatingPointRegisters :=
  ⟨0,0,0,0,0,0,0,0,0,0,0,0,0,0,0,0,0,0,0,0,0,0,0,0,0,0,0,0,0,0,0,0,0⟩

/-- A concrete task with one page mapped at base `0` with flags `2`. -/
def task0 : Task := ⟨.running, ⟨0, regs0, fpregs0⟩, [(0, 2)]⟩


/-! ## The address-map invariant

A well-formed map is a contiguous chain of proper half-open spans keyed by
their span ends, running from the start to the end of the userspace range,
with no two adjacent unoccupied regions. -/

/-- The map is a gapless chain of proper spans from `lo` to `hi`, each
entry keyed by its span end. -/
def chainB (lo hi : Nat) : RegionMap → Bool
  | [] => lo == hi
  | e :: rest =>
      (e.2.span.start == lo) && (decide (lo < e.2.span.stop)) &&
        (e.1 == e.2.span.stop) && chainB e.2.span.stop hi rest

/-- Adjacent entries are never both unoccupied. -/
def Compat (a b : Nat × AddressRegion) : Prop :=
  a.2.region.isSome = true ∨ b.2.region.isSome = true

instance : DecidableRel Compat := fun a b =>
  inferInstanceAs (Decidable (a.2.region.isSome = true ∨ b.2.region.isSome = true))

/-- Executable check that no two adjacent entries are both unoccupied. -/
def noAdjB : RegionMap → Bool
  | [] => true
  | [_] => true
  | a :: b :: rest => (a.2.region.isSome || b.2.region.isSome) && noAdjB (b :: rest)

/-- The internal invariant of an `AddressMap` over complete range `R`. -/
@[reducible]
def Inv (R : VRange) (m : AddressMap) : Prop :=
  chainB R.start R.stop m.map = true ∧ m.map.Chain' Compat

/-- The states reachable from `AddressMap::new` by `alloc`/`free` calls
that return, where every `alloc` range is proper (`start < stop`).
Calls that return `Err` leave the map unchanged (they bail out before any
mutation), so they do not add states; calls that panic do not return. -/
inductive Reaches (R : VRange) : AddressMap → Prop where
  | init : Reaches R (AddressMap.mkNew R)
  | allocStep (m : AddressMap) (s : VRange) (b : MemoryRegion) (k : AddressRegionKind)
      (m2 : AddressMap) : Reaches R m → s.start < s.stop →
      AddressMap.alloc m s b k = .ok m2 → Reaches R m2
  | freeStep (m : AddressMap) (rg : VRange) (b : MemoryRegion) (m2 : AddressMap) :
      Reaches R m → AddressMap.free m rg = .ok b m2 → Reaches R m2

/-! ## Claim C6: `is_superset` is bitwise containment -/

/-- C6: for 64-bit words `r` and `s`, `CapabilityRights::is_superset r s` is
true iff every bit set in `s` is also set in `r`; consequently
`is_superset r r` always holds, `is_superset r 0` always holds (`0` is the
rights value with no bits, i.e. `NONE`), and `is_superset 0 s` fails for
every nonzero `s`. -/
theorem is_superset_bitwise_containment (r s : Nat) (hr : r < USIZE) (hs : s < USIZE) :
    (CapabilityRights.is_superset r s = true ↔
      ∀ i, s.testBit i = true → r.testBit i = true) ∧
    CapabilityRights.is_superset r r = true ∧
    CapabilityRights.is_superset r 0 = true ∧
    (s ≠ 0 → CapabilityRights.is_superset 0 s = false) := by
  have kernelIff : ∀ a b : Nat, a < USIZE → b < USIZE →
      (CapabilityRights.is_superset a b = true ↔
        ∀ i, b.testBit i = true → a.testBit i = true) := by
    intro a b ha hb
    unfold CapabilityRights.is_superset USIZE_MAX
    rw [beq_iff_eq]
    constructor
    · intro h i hbi
      have hi64 : i < 64 := by
        by_contra hge
        have : b < 2 ^ i := lt_of_lt_of_le hb (Nat.pow_le_pow_right (by norm_num) (by omega))
        rw [Nat.testBit_lt_two_pow this] at hbi
        exact Bool.false_ne_true hbi
      have := congrArg (fun x => Nat.testBit x i) h
      simp only [Nat.testBit_or, Nat.testBit_xor, Nat.testBit_two_pow_sub_one,
        decide_eq_true hi64, hbi] at this
      simpa using this
    · intro h
      apply Nat.eq_of_testBit_eq
      intro i
      by_cases hi64 : i < 64
      · simp only [Nat.testBit_or, Nat.testBit_xor, Nat.testBit_two_pow_sub_one,
          decide_eq_true hi64]
        cases hbi : b.testBit i
        · simp
        · simp [h i hbi]
      · have hb' : b.testBit i = false :=
          Nat.testBit_lt_two_pow
            (lt_of_lt_of_le hb (Nat.pow_le_pow_right (by norm_num) (by omega)))
        have ha' : a.testBit i = false :=
          Nat.testBit_lt_two_pow
            (lt_of_lt_of_le ha (Nat.pow_le_pow_right (by norm_num) (by omega)))
        simp [Nat.testBit_or, Nat.testBit_xor, ha', hb', hi64]
  refine ⟨kernelIff r s hr hs, ?_, ?_, ?_⟩
  · exact (kernelIff r r hr hr).mpr (fun _ h => h)
  · exact (kernelIff r 0 hr (by unfold USIZE; positivity)).mpr (by simp)
  · intro hs0
    by_contra hcon
    rw [Bool.not_eq_false] at hcon
    have := (kernelIff 0 s (by unfold USIZE; positivity) hs).mp hcon
    apply hs0
    apply Nat.eq_of_testBit_eq
    intro i
    cases hsi : s.testBit i
    · simp
    · have := this i hsi
      simp at this

/-- Witness for C6 at concrete inputs. -/
theorem is_superset_bitwise_containment_witness :
    CapabilityRights.is_superset 6 6 = true ∧ CapabilityRights.is_superset 6 0 = true := by
  have h := is_superset_bitwise_containment 6 2 (by norm_num [USIZE]) (by norm_num [USIZE])
  exact ⟨h.2.1, h.2.2.1⟩

/-! ## Claim C7: trap-cause decoding is total and stable -/

/-- C7: each defined cause code decodes to its named variant matching the
RISC-V encoding (interrupts carry the top bit; synchronous codes 0-9, 11,
12, 13, 15), and every other cause value decodes to `Trap.Reserved`. -/
theorem from_cause_total :
    (Trap.from_cause 0x8000000000000000 = .UserSoftwareInterrupt ∧
     Trap.from_cause 0x8000000000000001 = .SupervisorSoftwareInterrupt ∧
     Trap.from_cause 0x8000000000000003 = .MachineSoftwareInterrupt ∧
     Trap.from_cause 0x8000000000000004 = .UserTimerInterrupt ∧
     Trap.from_cause 0x8000000000000005 = .SupervisorTimerInterrupt ∧
     Trap.from_cause 0x8000000000000007 = .MachineTimerInterrupt ∧
     Trap.from_cause 0x8000000000000008 = .UserExternalInterrupt ∧
     Trap.from_cause 0x8000000000000009 = .SupervisorExternalInterrupt ∧
     Trap.from_cause 0x800000000000000B = .MachineExternalInterrupt ∧
     Trap.from_cause 0 = .InstructionAddressMisaligned ∧
     Trap.from_cause 1 = .InstructionAccessFault ∧
     Trap.from_cause 2 = .IllegalInstruction ∧
     Trap.from_cause 3 = .Breakpoint ∧
     Trap.from_cause 4 = .LoadAddressMisaligned ∧
     Trap.from_cause 5 = .LoadAccessFault ∧
     Trap.from_cause 6 = .StoreAddressMisaligned ∧
     Trap.from_cause 7 = .StoreAccessFault ∧
     Trap.from_cause 8 = .UserModeEnvironmentCall ∧
     Trap.from_cause 9 = .SupervisorModeEnvironmentCall ∧
     Trap.from_cause 11 = .MachineModeEnvironmentCall ∧
     Trap.from_cause 12 = .InstructionPageFault ∧
     Trap.from_cause 13 = .LoadPageFault ∧
     Trap.from_cause 15 = .StorePageFault) ∧
    ∀ c : Nat, c ∉ definedCauseCodes → Trap.from_cause c = .Reserved := by
  constructor
  · refine ⟨rfl, rfl, rfl, rfl, rfl, rfl, rfl, rfl, rfl, rfl, rfl, rfl,
      rfl, rfl, rfl, rfl, rfl, rfl, rfl, rfl, rfl, rfl, rfl⟩
  · intro c hc
    simp only [definedCauseCodes, List.mem_cons, List.not_mem_nil, or_false, not_or] at hc
    obtain ⟨h1, h2, h3, h4, h5, h6, h7, h8, h9, h10, h11, h12, h13, h14, h15,
      h16, h17, h18, h19, h20, h21, h22, h23⟩ := hc
    simp only [Trap.from_cause, if_neg h1, if_neg h2, if_neg h3, if_neg h4,
      if_neg h5, if_neg h6, if_neg h7, if_neg h8, if_neg h9, if_neg h10,
      if_neg h11, if_neg h12, if_neg h13, if_neg h14, if_neg h15, if_neg h16,
      if_neg h17, if_neg h18, if_neg h19, if_neg h20, if_neg h21, if_neg h22,
      if_neg h23]

/-- Witness for C7 at a concrete undefined cause value. -/
theorem from_cause_total_witness : Trap.from_cause 10 = .Reserved :=
  from_cause_total.2 10 (by decide)

/-! ## Claim C10: `MemoryPermissions::READ` is the all-zeros mask -/

/-- C10: `p & MemoryPermissions::READ` is true for every permission value
`p`, because `READ` is the all-zeros mask, so the overloaded bitwise-AND
containment test can never detect the absence of read permission; in
contrast `WRITE` and `EXECUTE` are distinct nonzero single bits and their
absence is detectable. -/
theorem read_permission_check_vacuous :
    (∀ p : Nat, MemoryPermissions.bitand p MemoryPermissions.READ = true) ∧
    MemoryPermissions.READ = 0 ∧
    MemoryPermissions.WRITE ≠ 0 ∧
    MemoryPermissions.EXECUTE ≠ 0 ∧
    MemoryPermissions.WRITE &&& MemoryPermissions.EXECUTE = 0 ∧
    MemoryPermissions.bitand 0 MemoryPermissions.WRITE = false ∧
    MemoryPermissions.bitand 0 MemoryPermissions.EXECUTE = false := by
  refine ⟨?_, rfl, by decide, by decide, by decide, by decide, by decide⟩
  intro p
  simp [MemoryPermissions.bitand, MemoryPermissions.READ]

/-! ## Claim C1: alloc/free round trip -/

/-- C1 (code bug): allocating `[0x1000, 0x3000)` out of a fresh map is a
non-overlapping in-bounds request and succeeds, but freeing the exact same
range then panics (`crash`) inside the left coalescing loop — after
absorbing the left neighbor the loop's span start reaches the userspace
start, no entry is keyed there, and `self.map.remove(&range.span.start)
.unwrap()` unwraps `None` — instead of returning `Ok` with the original
backing and restoring the map. -/
theorem alloc_free_roundtrip_crashes :
    AddressMap.alloc AddressMap.new ⟨0x1000, 0x3000⟩ 7 .stack = .ok allocScenarioMap ∧
    AddressMap.free allocScenarioMap ⟨0x1000, 0x3000⟩ = .crash := by
  constructor
  · decide
  · simp [AddressMap.free, firstGe, removeTake, coalesceLeft, allocScenarioMap]

/-! ## Claim C2: freeing with unoccupied neighbors -/

/-- C2 (code bug): `allocScenarioMap` has exactly one occupied region,
`[0x1000, 0x3000)`, flanked by unoccupied neighbors on both sides, yet
freeing its exact span panics (`crash`) in the coalescing pass rather than
returning `Ok` and restoring a single unoccupied region covering the full
userspace range. -/
theorem free_sole_occupied_region_crashes :
    (∀ e ∈ allocScenarioMap.map, e.2.region.isSome = true → e.2.span = ⟨0x1000, 0x3000⟩) ∧
    (∃ e ∈ allocScenarioMap.map, e.2.region.isSome = true) ∧
    AddressMap.free allocScenarioMap ⟨0x1000, 0x3000⟩ = .crash := by
  refine ⟨by decide, by decide, ?_⟩
  simp [AddressMap.free, firstGe, removeTake, coalesceLeft, allocScenarioMap]

/-! ## Claim C3: the partition invariant -/

/-- C3 counterexample: the empty-range allocation `[0x10, 0x10)` is an
`alloc` call that returns `Ok` starting from `AddressMap::new`, yet the
resulting map no longer covers address `0` of the userspace range — the
claimed partition invariant fails for this call sequence. -/
theorem alloc_empty_range_breaks_partition :
    AddressMap.alloc AddressMap.new ⟨0x10, 0x10⟩ 1 .data = .ok emptyAllocMap ∧
    userspace_range.start ≤ 0 ∧ 0 < userspace_range.stop ∧
    coversAddr emptyAllocMap 0 = false := by
  decide

/-! ## Claim C4: `find` -/

/-- C4 counterexample: in `allocScenarioMap` (a state produced by a single
successful `alloc`), address `0x1000` lies inside the userspace range and
inside the occupied region `[0x1000, 0x3000)`, but `find` returns the
preceding region `[0x0, 0x1000)` — whose key `0x1000` is the first key ≥
the address — and that region's half-open span does not contain the
address. -/
theorem find_at_boundary_returns_noncontaining :
    AddressMap.find allocScenarioMap 0x1000 = some ⟨none, ⟨0x0, 0x1000⟩, .unoccupied⟩ ∧
    0x1000 < userspace_range.stop ∧
    ¬((0x1000 : Nat) < (VRange.mk 0x0 0x1000).stop) := by
  decide

theorem modify_page_flags_of_lookup_some {mm : MemoryManager} {addr fl : Nat} (f : Nat → Nat)
    (h : lookupPage mm addr = some fl) :
    modify_page_flags mm addr f = (true, writePage mm addr (f fl)) := by
  induction mm with
  | nil => simp [lookupPage] at h
  | cons e rest ih =>
    obtain ⟨p, fl2⟩ := e
    by_cases hp : p = pageBase addr
    · simp only [lookupPage, if_pos hp, Option.some.injEq] at h
      simp [modify_page_flags, writePage, hp, h]
    · simp only [lookupPage, if_neg hp] at h
      simp [modify_page_flags, writePage, hp, ih h]

theorem modify_page_flags_of_lookup_none {mm : MemoryManager} {addr : Nat} (f : Nat → Nat)
    (h : lookupPage mm addr = none) :
    modify_page_flags mm addr f = (false, mm) := by
  induction mm with
  | nil => simp [modify_page_flags]
  | cons e rest ih =>
    obtain ⟨p, fl2⟩ := e
    by_cases hp : p = pageBase addr
    · simp [lookupPage, hp] at h
    · simp only [lookupPage, if_neg hp] at h
      simp [modify_page_flags, hp, ih h]


/-! ## Claim C8: user-mode environment calls -/

/-- C8: the user-ecall branch selects the handler by `a0` (0 = exit,
1 = print, 2 = read-stdin); any other `a0` marks the task `Dead` without
panicking; and in every case the context persisted before rescheduling
carries pc = trapped pc + 4 and the (possibly handler-mutated) register
frame.  Holds for arbitrary syscall implementations. -/
theorem user_ecall_persists_context
    (exitFn : Task → Task) (printFn : Task → Nat → Nat → Nat → Task)
    (readStdinFn : Task → Nat → Nat → TrapFrame → Task × TrapFrame)
    (task : Task) (regs : TrapFrame) (sepc : Nat) (hpc : sepc + 4 < USIZE) :
    (trap_handler_user_ecall exitFn printFn readStdinFn task regs sepc).1.context.pc
        = sepc + 4 ∧
    (trap_handler_user_ecall exitFn printFn readStdinFn task regs sepc).1.context.gp_regs
        = (trap_handler_user_ecall exitFn printFn readStdinFn task regs sepc).2.registers ∧
    (trap_handler_user_ecall exitFn printFn readStdinFn task regs sepc).1.context.fp_regs
        = (trap_handler_user_ecall exitFn printFn readStdinFn task regs sepc).2.fp_registers ∧
    (regs.registers.a0 = 0 →
      trap_handler_user_ecall exitFn printFn readStdinFn task regs sepc
        = ({ exitFn task with
              context := ⟨sepc + 4, regs.registers, regs.fp_registers⟩ }, regs)) ∧
    (regs.registers.a0 = 1 →
      trap_handler_user_ecall exitFn printFn readStdinFn task regs sepc
        = ({ printFn task regs.registers.a1 regs.registers.a2 regs.registers.a3 with
              context := ⟨sepc + 4, regs.registers, regs.fp_registers⟩ }, regs)) ∧
    (regs.registers.a0 = 2 →
      trap_handler_user_ecall exitFn printFn readStdinFn task regs sepc
        = ({ (readStdinFn task regs.registers.a1 regs.registers.a2 regs).1 with
              context :=
                ⟨sepc + 4,
                 (readStdinFn task regs.registers.a1 regs.registers.a2 regs).2.registers,
                 (readStdinFn task regs.registers.a1 regs.registers.a2 regs).2.fp_registers⟩ },
           (readStdinFn task regs.registers.a1 regs.registers.a2 regs).2)) ∧
    (regs.registers.a0 ∉ ([0, 1, 2] : List Nat) →
      (trap_handler_user_ecall exitFn printFn readStdinFn task regs sepc).1.state
        = .dead) := by
  have hmod : (sepc + 4) % USIZE = sepc + 4 := Nat.mod_eq_of_lt hpc
  refine ⟨?_, rfl, rfl, ?_, ?_, ?_, ?_⟩
  · simp [trap_handler_user_ecall, hmod]
  · intro h; simp [trap_handler_user_ecall, h, hmod]
  · intro h; simp [trap_handler_user_ecall, h, hmod]
  · intro h; simp [trap_handler_user_ecall, h, hmod]
  · intro h
    simp only [List.mem_cons, List.not_mem_nil, or_false, not_or] at h
    simp [trap_handler_user_ecall, h.1, h.2.1, h.2.2]


/-- Witness for C8 at concrete handlers, task, frame, and pc. -/
theorem user_ecall_persists_context_witness :
    (trap_handler_user_ecall id (fun t _ _ _ => t) (fun t _ _ r => (t, r)) task0
      ⟨regs0, fpregs0⟩ 0x40).1.context.pc = 0x40 + 4 :=
  (user_ecall_persists_context id (fun t _ _ _ => t) (fun t _ _ r => (t, r)) task0
    ⟨regs0, fpregs0⟩ 0x40 (by norm_num [USIZE])).1

/-! ## Claim C9: page-fault handling -/

/-- C9: outside the kernel region, load/instruction page faults set
ACCESSED and store page faults set ACCESSED and DIRTY on the faulting
page's mapping; when the page is mapped the outcome is `repaired` with a
translation-cache invalidation for that address and the task keeps its
state (not `Dead`); when it is unmapped the task is marked `Dead`; and a
page fault inside the kernel-reserved region always panics
(`kernelBug`). -/
theorem page_fault_handling (task : Task) (stval : Nat) :
    (is_kernel_region stval = true →
      ∀ k : Trap, trap_handler_page_fault k task stval = .kernelBug) ∧
    (is_kernel_region stval = false →
      ∀ fl : Nat, lookupPage task.memory_manager stval = some fl →
        (trap_handler_page_fault .LoadPageFault task stval
            = .repaired
                ⟨task.state, task.context,
                 writePage task.memory_manager stval (fl ||| flags.ACCESSED)⟩ stval) ∧
        (trap_handler_page_fault .InstructionPageFault task stval
            = .repaired
                ⟨task.state, task.context,
                 writePage task.memory_manager stval (fl ||| flags.ACCESSED)⟩ stval) ∧
        (trap_handler_page_fault .StorePageFault task stval
            = .repaired
                ⟨task.state, task.context,
                 writePage task.memory_manager stval
                   (fl ||| flags.ACCESSED ||| flags.DIRTY)⟩ stval)) ∧
    (is_kernel_region stval = false →
      lookupPage task.memory_manager stval = none →
        ∀ k ∈ ([.LoadPageFault, .InstructionPageFault, .StorePageFault] : List Trap),
          trap_handler_page_fault k task stval = .killed { task with state := .dead }) := by
  refine ⟨?_, ?_, ?_⟩
  · intro hk k
    simp [trap_handler_page_fault, hk]
  · intro hk fl hfl
    refine ⟨?_, ?_, ?_⟩ <;>
      simp [trap_handler_page_fault, hk, modify_page_flags_of_lookup_some _ hfl]
  · intro hk hfl k hkmem
    fin_cases hkmem <;>
      simp [trap_handler_page_fault, hk, modify_page_flags_of_lookup_none _ hfl]

/-- Witness for C9: in `task0` the page at base 0 is mapped with flags 2,
so a load page fault at `0x100` is repaired by setting ACCESSED. -/
theorem page_fault_handling_witness :
    trap_handler_page_fault .LoadPageFault task0 0x100
      = .repaired ⟨task0.state, task0.context, [(0, 66)]⟩ 0x100 :=
  ((page_fault_handling task0 0x100).2.1 (by decide) 2 (by decide)).1

/-! ## Toolkit lemmas about the map operations -/

theorem chain'_compat_of_noAdjB : ∀ {m : RegionMap}, noAdjB m = true → m.Chain' Compat
  | [], _ => List.chain'_nil
  | [_], _ => List.chain'_singleton _
  | a :: b :: rest, h => by
    simp only [noAdjB, Bool.and_eq_true, Bool.or_eq_true] at h
    exact List.chain'_cons.mpr ⟨h.1, chain'_compat_of_noAdjB (by
      simpa [noAdjB] using h.2)⟩

theorem firstGe_cons_found {e : Nat × AddressRegion} {rest : RegionMap} {k : Nat}
    (h : k ≤ e.1) : firstGe (e :: rest) k = some e := by
  simp [firstGe, h]

theorem firstGe_cons_skip {e : Nat × AddressRegion} {rest : RegionMap} {k : Nat}
    (h : e.1 < k) : firstGe (e :: rest) k = firstGe rest k := by
  simp [firstGe, Nat.not_le.mpr h]

theorem firstGe_append_skip {pre post : RegionMap} {k : Nat}
    (h : ∀ e ∈ pre, e.1 < k) : firstGe (pre ++ post) k = firstGe post k := by
  induction pre with
  | nil => rfl
  | cons e rest ih =>
    rw [List.cons_append, firstGe_cons_skip (h e (by simp))]
    exact ih (fun x hx => h x (by simp [hx]))

theorem firstGe_none {m : RegionMap} {k : Nat}
    (h : ∀ e ∈ m, e.1 < k) : firstGe m k = none := by
  induction m with
  | nil => rfl
  | cons e rest ih =>
    rw [firstGe_cons_skip (h e (by simp))]
    exact ih (fun x hx => h x (by simp [hx]))

theorem firstGe_mem {m : RegionMap} {k : Nat} {e : Nat × AddressRegion}
    (h : firstGe m k = some e) : e ∈ m := by
  induction m with
  | nil => simp [firstGe] at h
  | cons x rest ih =>
    by_cases hk : k ≤ x.1
    · rw [firstGe_cons_found hk] at h
      simp [← Option.some.inj h]
    · rw [firstGe_cons_skip (Nat.not_le.mp hk)] at h
      simp [ih h]

theorem removeTake_append {pre post : RegionMap} {k : Nat} {v : AddressRegion}
    (h : ∀ e ∈ pre, e.1 ≠ k) :
    removeTake (pre ++ (k, v) :: post) k = some (v, pre ++ post) := by
  induction pre with
  | nil => simp [removeTake]
  | cons e rest ih =>
    rw [List.cons_append, removeTake, if_neg (h e (by simp)),
      ih (fun x hx => h x (by simp [hx]))]
    rfl

theorem removeTake_none {m : RegionMap} {k : Nat}
    (h : ∀ e ∈ m, e.1 ≠ k) : removeTake m k = none := by
  induction m with
  | nil => rfl
  | cons e rest ih =>
    rw [removeTake, if_neg (h e (by simp)), ih (fun x hx => h x (by simp [hx]))]

theorem insertKV_append {pre post : RegionMap} {k : Nat} {v : AddressRegion}
    (hpre : ∀ e ∈ pre, e.1 < k) (hpost : ∀ e ∈ post, k < e.1) :
    insertKV (pre ++ post) k v = pre ++ (k, v) :: post := by
  induction pre with
  | nil =>
    cases post with
    | nil => rfl
    | cons q rest =>
      have hq : k < q.1 := hpost q (by simp)
      simp [insertKV, hq]
  | cons e rest ih =>
    have he : e.1 < k := hpre e (by simp)
    rw [List.cons_append, insertKV, if_neg (by omega), if_neg (by omega)]
    rw [ih (fun x hx => hpre x (by simp [hx]))]
    rfl

theorem insertKV_append2 (pre post : RegionMap) (k : Nat) (v : AddressRegion)
    (hpre : ∀ e ∈ pre, e.1 < k) (hpost : ∀ e ∈ post, k < e.1) :
    insertKV (pre ++ post) k v = pre ++ (k, v) :: post :=
  insertKV_append hpre hpost

/-! ## Toolkit lemmas about `chainB` -/

theorem chainB_nil {lo hi : Nat} (h : chainB lo hi [] = true) : lo = hi := by
  simpa [chainB] using h

theorem chainB_cons_iff {lo hi : Nat} {e : Nat × AddressRegion} {rest : RegionMap} :
    chainB lo hi (e :: rest) = true ↔
      e.2.span.start = lo ∧ lo < e.2.span.stop ∧ e.1 = e.2.span.stop ∧
        chainB e.2.span.stop hi rest = true := by
  simp [chainB, and_assoc]

theorem chainB_le {lo hi : Nat} {m : RegionMap} (h : chainB lo hi m = true) : lo ≤ hi := by
  induction m generalizing lo with
  | nil => exact (chainB_nil h).le
  | cons e rest ih =>
    obtain ⟨-, h2, -, h4⟩ := chainB_cons_iff.mp h
    exact le_trans (le_of_lt h2) (ih h4)

theorem chainB_bounds {lo hi : Nat} {m : RegionMap} (h : chainB lo hi m = true) :
    ∀ e ∈ m, lo ≤ e.2.span.start ∧ e.2.span.start < e.2.span.stop ∧
      e.1 = e.2.span.stop ∧ e.2.span.stop ≤ hi := by
  induction m generalizing lo with
  | nil => simp
  | cons x rest ih =>
    obtain ⟨h1, h2, h3, h4⟩ := chainB_cons_iff.mp h
    intro e he
    rcases List.mem_cons.mp he with rfl | hmem
    · exact ⟨h1.ge, h1 ▸ h2, h3, chainB_le h4⟩
    · have := ih h4 e hmem
      exact ⟨le_trans (le_of_lt (h1 ▸ h2)) this.1, this.2⟩

theorem chainB_keys_lt {lo hi : Nat} {m : RegionMap} (h : chainB lo hi m = true) :
    ∀ e ∈ m, lo < e.1 ∧ e.1 ≤ hi := by
  intro e he
  obtain ⟨h1, h2, h3, h4⟩ := chainB_bounds h e he
  omega

theorem chainB_append {lo mid hi : Nat} {pre post : RegionMap}
    (hpre : chainB lo mid pre = true) (hpost : chainB mid hi post = true) :
    chainB lo hi (pre ++ post) = true := by
  induction pre generalizing lo with
  | nil => rwa [chainB_nil hpre]
  | cons e rest ih =>
    obtain ⟨h1, h2, h3, h4⟩ := chainB_cons_iff.mp hpre
    exact List.cons_append e rest post ▸
      chainB_cons_iff.mpr ⟨h1, h2, h3, ih h4⟩

theorem chainB_of_append {lo hi : Nat} {pre post : RegionMap} {e : Nat × AddressRegion}
    (h : chainB lo hi (pre ++ e :: post) = true) :
    chainB lo e.2.span.start pre = true ∧ e.2.span.start < e.2.span.stop ∧
      e.1 = e.2.span.stop ∧ chainB e.2.span.stop hi post = true := by
  induction pre generalizing lo with
  | nil =>
    obtain ⟨h1, h2, h3, h4⟩ := chainB_cons_iff.mp h
    exact ⟨by simp [chainB, h1], h1 ▸ h2, h3, h4⟩
  | cons x rest ih =>
    rw [List.cons_append] at h
    obtain ⟨h1, h2, h3, h4⟩ := chainB_cons_iff.mp h
    obtain ⟨g1, g2, g3, g4⟩ := ih h4
    exact ⟨chainB_cons_iff.mpr ⟨h1, h2, h3, g1⟩, g2, g3, g4⟩

theorem chainB_snoc_iff {lo hi : Nat} {xs : RegionMap} {e : Nat × AddressRegion} :
    chainB lo hi (xs ++ [e]) = true ↔
      chainB lo e.2.span.start xs = true ∧ e.2.span.start < e.2.span.stop ∧
        e.1 = e.2.span.stop ∧ e.2.span.stop = hi := by
  constructor
  · intro h
    obtain ⟨h1, h2, h3, h4⟩ := chainB_of_append h
    exact ⟨h1, h2, h3, chainB_nil h4⟩
  · rintro ⟨h1, h2, h3, h4⟩
    exact chainB_append h1 (chainB_cons_iff.mpr ⟨rfl, h2, h3, by simp [chainB, h4]⟩)

theorem chainB_decomp {lo hi k : Nat} {m : RegionMap} {key : Nat} {r : AddressRegion}
    (h : chainB lo hi m = true) (hf : firstGe m k = some (key, r)) :
    ∃ pre post, m = pre ++ (key, r) :: post ∧
      chainB lo r.span.start pre = true ∧ r.span.start < r.span.stop ∧
      key = r.span.stop ∧ chainB r.span.stop hi post = true ∧
      (∀ e ∈ pre, e.1 < k) ∧ k ≤ key := by
  induction m generalizing lo with
  | nil => simp [firstGe] at hf
  | cons x rest ih =>
    obtain ⟨h1, h2, h3, h4⟩ := chainB_cons_iff.mp h
    by_cases hk : k ≤ x.1
    · rw [firstGe_cons_found hk] at hf
      obtain rfl := Option.some.inj hf
      exact ⟨[], rest, rfl, by simp [chainB]; exact h1.symm, h1 ▸ h2, h3, h4, by simp, hk⟩
    · rw [firstGe_cons_skip (Nat.not_le.mp hk)] at hf
      obtain ⟨pre, post, hsplit, g1, g2, g3, g4, g5, g6⟩ := ih h4 hf
      exact ⟨x :: pre, post, by rw [hsplit, List.cons_append],
        chainB_cons_iff.mpr ⟨h1, h2, h3, g1⟩, g2, g3, g4,
        fun e he => by
          rcases List.mem_cons.mp he with rfl | hmem
          · exact Nat.not_le.mp hk
          · exact g5 e hmem, g6⟩

theorem chainB_cover {lo hi : Nat} {m : RegionMap} (h : chainB lo hi m = true) :
    ∀ a, lo ≤ a → a < hi → ∃ e ∈ m, e.2.span.start ≤ a ∧ a < e.2.span.stop := by
  induction m generalizing lo with
  | nil => intro a ha1 ha2; rw [chainB_nil h] at ha1; omega
  | cons x rest ih =>
    obtain ⟨h1, h2, h3, h4⟩ := chainB_cons_iff.mp h
    intro a ha1 ha2
    by_cases hx : a < x.2.span.stop
    · exact ⟨x, by simp, h1 ▸ ha1, hx⟩
    · obtain ⟨e, he, g⟩ := ih h4 a (Nat.not_lt.mp hx) ha2
      exact ⟨e, by simp [he], g⟩

theorem chainB_pairwise {lo hi : Nat} {m : RegionMap} (h : chainB lo hi m = true) :
    m.Pairwise (fun e f => e.2.span.stop ≤ f.2.span.start) := by
  induction m generalizing lo with
  | nil => exact List.Pairwise.nil
  | cons x rest ih =>
    obtain ⟨h1, h2, h3, h4⟩ := chainB_cons_iff.mp h
    exact List.Pairwise.cons (fun f hf => (chainB_bounds h4 f hf).1) (ih h4)

/-! ## Preservation of the invariant by `alloc` -/

theorem chain'_cons_of {l : RegionMap} {a : Nat × AddressRegion}
    (h : l.Chain' Compat) (hhead : ∀ y ∈ l.head?, Compat a y) :
    (a :: l).Chain' Compat :=
  List.chain'_cons'.mpr ⟨hhead, h⟩

theorem alloc_ok_inv {R : VRange} {m : AddressMap} {s : VRange} {b : MemoryRegion}
    {kd : AddressRegionKind} {m2 : AddressMap} (hInv : Inv R m) (hs : s.start < s.stop)
    (h : AddressMap.alloc m s b kd = .ok m2) : Inv R m2 := by
  obtain ⟨hch, hcp⟩ := hInv
  unfold AddressMap.alloc at h
  cases hfg : firstGe m.map s.stop with
  | none => rw [hfg] at h; simp at h
  | some e =>
    obtain ⟨key, r⟩ := e
    rw [hfg] at h
    dsimp only [] at h
    by_cases hguard : r.span.start > s.start ∨ r.span.stop < s.stop ∨ r.region.isSome = true
    · rw [if_pos hguard] at h; simp at h
    · rw [if_neg hguard] at h
      push_neg at hguard
      obtain ⟨hstart, hstop, hunocc⟩ := hguard
      have hrnone : r.region = none := Option.not_isSome_iff_eq_none.mp (by simpa using hunocc)
      obtain ⟨pre, post, hsplit, hchpre, hproper, hkey, hchpost, hprelt, hkle⟩ :=
        chainB_decomp hch hfg
      have hne : ∀ x ∈ pre, x.1 ≠ key := fun x hx => by
        have := hprelt x hx; omega
      rw [hsplit, removeTake_append hne] at h
      dsimp only [] at h
      have hprele : ∀ x ∈ pre, x.1 ≤ r.span.start := fun x hx => by
        have hb := chainB_bounds hchpre x hx; omega
      have hpostgt : ∀ x ∈ post, r.span.stop < x.1 := fun x hx =>
        (chainB_keys_lt hchpost x hx).1
      rw [hsplit] at hcp
      have hcpPre : pre.Chain' Compat := (List.chain'_append.mp hcp).1
      have hcpTail : ((key, r) :: post).Chain' Compat := (List.chain'_append.mp hcp).2.1
      have hcpPost : post.Chain' Compat := (List.chain'_cons'.mp hcpTail).2
      have hheadOcc : ∀ y ∈ post.head?, y.2.region.isSome = true := fun y hy => by
        rcases (List.chain'_cons'.mp hcpTail).1 y hy with hl | hr
        · rw [hrnone] at hl; simp at hl
        · exact hr
      have hlastOcc : ∀ x ∈ pre.getLast?, x.2.region.isSome = true := fun x hx => by
        rcases (List.chain'_append.mp hcp).2.2 x hx (key, r) (by simp) with hl | hr
        · exact hl
        · rw [hrnone] at hr; simp at hr
      by_cases hA : r.span.start = s.start <;> by_cases hB : r.span.stop = s.stop
      · -- exact fit: single replacement region
        rw [show (r.span.start == s.start) = true from by simp [hA],
          show (r.span.stop == s.stop) = true from by simp [hB]] at h
        dsimp only [] at h
        have i1 : ∀ v, insertKV (pre ++ post) s.stop v = pre ++ (s.stop, v) :: post :=
          fun v => insertKV_append (fun x hx => hprelt x hx)
            (fun x hx => by have := hpostgt x hx; omega)
        rw [i1, AllocResult.ok.injEq] at h
        subst h
        refine ⟨chainB_append hchpre (chainB_cons_iff.mpr
          ⟨by first | rfl | (dsimp only; omega) | omega, by first | rfl | (dsimp only; omega) | omega, rfl, by dsimp only; rw [← hB]; exact hchpost⟩), ?_⟩
        refine List.chain'_append.mpr ⟨hcpPre, ?_, ?_⟩
        · exact chain'_cons_of hcpPost (fun y hy => Or.inl rfl)
        · intro x hx y hy
          simp only [List.head?_cons, Option.mem_some_iff] at hy
          exact Or.inr (hy ▸ rfl)
      · -- chop off the start: new active region, then the shrunken remainder
        have hBlt : s.stop < r.span.stop := by omega
        rw [show (r.span.start == s.start) = true from by simp [hA],
          show (r.span.stop == s.stop) = false from by simp [hB]] at h
        dsimp only [] at h
        have i1 : ∀ v, insertKV (pre ++ post) r.span.stop v
            = pre ++ (r.span.stop, v) :: post :=
          fun v => insertKV_append (fun x hx => by have := hprelt x hx; omega)
            (fun x hx => hpostgt x hx)
        have i2 : ∀ w v, insertKV (pre ++ (r.span.stop, w) :: post) s.stop v
            = pre ++ (s.stop, v) :: (r.span.stop, w) :: post := fun w v =>
          insertKV_append (fun x hx => hprelt x hx)
            (fun x hx => by
              rcases List.mem_cons.mp hx with rfl | hx
              · dsimp only; omega
              · have := hpostgt x hx; omega)
        rw [i1, i2, AllocResult.ok.injEq] at h
        subst h
        refine ⟨chainB_append hchpre (chainB_cons_iff.mpr
          ⟨by first | rfl | (dsimp only; omega) | omega, by first | rfl | (dsimp only; omega) | omega, rfl, ?_⟩), ?_⟩
        · exact chainB_cons_iff.mpr ⟨by first | rfl | (dsimp only; omega) | omega, by first | rfl | (dsimp only; omega) | omega, rfl,
            by dsimp only; exact hchpost⟩
        refine List.chain'_append.mpr ⟨hcpPre, ?_, ?_⟩
        · refine chain'_cons_of (chain'_cons_of hcpPost ?_) (fun y hy => Or.inl rfl)
          intro y hy
          exact Or.inr (hheadOcc y hy)
        · intro x hx y hy
          simp only [List.head?_cons, Option.mem_some_iff] at hy
          exact Or.inr (hy ▸ rfl)
      · -- chop off the end: the shrunken remainder, then the active region
        have hAlt : r.span.start < s.start := by omega
        rw [show (r.span.start == s.start) = false from by simp [hA],
          show (r.span.stop == s.stop) = true from by simp [hB]] at h
        dsimp only [] at h
        have i1 : ∀ v, insertKV (pre ++ post) s.start v = pre ++ (s.start, v) :: post :=
          fun v => insertKV_append (fun x hx => by have := hprele x hx; omega)
            (fun x hx => by have := hpostgt x hx; omega)
        have i2 : ∀ w v, insertKV (pre ++ (s.start, w) :: post) s.stop v
            = pre ++ (s.start, w) :: (s.stop, v) :: post := fun w v => by
          have h2 := insertKV_append2 (pre ++ [(s.start, w)]) post s.stop v
            (fun x hx => by
              rcases List.mem_append.mp hx with hx | hx
              · have := hprele x hx; omega
              · simp at hx; subst hx; dsimp only; omega)
            (fun x hx => by have := hpostgt x hx; omega)
          simpa using h2
        rw [i1, i2, AllocResult.ok.injEq] at h
        subst h
        refine ⟨chainB_append hchpre (chainB_cons_iff.mpr
          ⟨by first | rfl | (dsimp only; omega) | omega, by first | rfl | (dsimp only; omega) | omega, rfl, ?_⟩), ?_⟩
        · exact chainB_cons_iff.mpr ⟨by first | rfl | (dsimp only; omega) | omega, by first | rfl | (dsimp only; omega) | omega, rfl,
            by dsimp only; rw [← hB]; exact hchpost⟩
        refine List.chain'_append.mpr ⟨hcpPre, ?_, ?_⟩
        · refine chain'_cons_of (chain'_cons_of hcpPost (fun y hy => Or.inl rfl)) ?_
          intro y hy
          simp only [List.head?_cons, Option.mem_some_iff] at hy
          exact Or.inr (hy ▸ rfl)
        · intro x hx y hy
          simp only [List.head?_cons, Option.mem_some_iff] at hy
          exact Or.inl (hlastOcc x hx)
      · -- true subrange: three pieces
        have hAlt : r.span.start < s.start := by omega
        have hBlt : s.stop < r.span.stop := by omega
        rw [show (r.span.start == s.start) = false from by simp [hA],
          show (r.span.stop == s.stop) = false from by simp [hB]] at h
        dsimp only [] at h
        have i1 : ∀ v, insertKV (pre ++ post) s.start v = pre ++ (s.start, v) :: post :=
          fun v => insertKV_append (fun x hx => by have := hprele x hx; omega)
            (fun x hx => by have := hpostgt x hx; omega)
        have i2 : ∀ w v, insertKV (pre ++ (s.start, w) :: post) s.stop v
            = pre ++ (s.start, w) :: (s.stop, v) :: post := fun w v => by
          have h2 := insertKV_append2 (pre ++ [(s.start, w)]) post s.stop v
            (fun x hx => by
              rcases List.mem_append.mp hx with hx | hx
              · have := hprele x hx; omega
              · simp at hx; subst hx; dsimp only; omega)
            (fun x hx => by have := hpostgt x hx; omega)
          simpa using h2
        have i3 : ∀ w u v, insertKV (pre ++ (s.start, w) :: (s.stop, u) :: post)
              r.span.stop v
            = pre ++ (s.start, w) :: (s.stop, u) :: (r.span.stop, v) :: post := fun w u v => by
          have h3 := insertKV_append2 (pre ++ [(s.start, w), (s.stop, u)]) post r.span.stop v
            (fun x hx => by
              rcases List.mem_append.mp hx with hx | hx
              · have := hprele x hx; omega
              · simp at hx
                rcases hx with hx | hx <;> (subst hx; dsimp only; omega))
            (fun x hx => hpostgt x hx)
          simpa using h3
        rw [i1, i2, i3, AllocResult.ok.injEq] at h
        subst h
        refine ⟨chainB_append hchpre (chainB_cons_iff.mpr
          ⟨by first | rfl | (dsimp only; omega) | omega, by first | rfl | (dsimp only; omega) | omega, rfl, ?_⟩), ?_⟩
        · refine chainB_cons_iff.mpr ⟨by first | rfl | (dsimp only; omega) | omega, by first | rfl | (dsimp only; omega) | omega, rfl, ?_⟩
          exact chainB_cons_iff.mpr ⟨by first | rfl | (dsimp only; omega) | omega, by first | rfl | (dsimp only; omega) | omega, rfl,
            by dsimp only; exact hchpost⟩
        refine List.chain'_append.mpr ⟨hcpPre, ?_, ?_⟩
        · refine chain'_cons_of (chain'_cons_of (chain'_cons_of hcpPost ?_) ?_) ?_
          · intro y hy
            exact Or.inr (hheadOcc y hy)
          · intro y hy
            simp only [List.head?_cons, Option.mem_some_iff] at hy
            exact Or.inl rfl
          · intro y hy
            simp only [List.head?_cons, Option.mem_some_iff] at hy
            exact Or.inr (hy ▸ rfl)
        · intro x hx y hy
          simp only [List.head?_cons, Option.mem_some_iff] at hy
          exact Or.inl (hlastOcc x hx)

/-! ## Unfolding lemmas for the two coalescing loops -/

theorem coalesceLeft_none_stop {m : RegionMap} {sp : VRange}
    (hf : firstGe m sp.start = none) : coalesceLeft m sp = some (m, sp) := by
  unfold coalesceLeft
  rw [hf]

theorem coalesceLeft_stop {m : RegionMap} {sp : VRange} {e : Nat × AddressRegion}
    (hf : firstGe m sp.start = some e) (hocc : e.2.region.isSome = true) :
    coalesceLeft m sp = some (m, sp) := by
  obtain ⟨k1, reg⟩ := e
  obtain ⟨v, hv⟩ := Option.isSome_iff_exists.mp hocc
  unfold coalesceLeft
  rw [hf]
  dsimp only []
  rw [hv]
  rfl

theorem coalesceLeft_step {m m2 : RegionMap} {sp : VRange} {e : Nat × AddressRegion}
    {v : AddressRegion}
    (hf : firstGe m sp.start = some e) (hun : e.2.region = none)
    (hrm : removeTake m sp.start = some (v, m2)) :
    coalesceLeft m sp = coalesceLeft m2 ⟨v.span.start, sp.stop⟩ := by
  obtain ⟨k1, reg⟩ := e
  conv_lhs => unfold coalesceLeft
  rw [hf]
  dsimp only []
  rw [hun, hrm]
  rfl

theorem coalesceLeft_crash {m : RegionMap} {sp : VRange} {e : Nat × AddressRegion}
    (hf : firstGe m sp.start = some e) (hun : e.2.region = none)
    (hrm : removeTake m sp.start = none) :
    coalesceLeft m sp = none := by
  obtain ⟨k1, reg⟩ := e
  conv_lhs => unfold coalesceLeft
  rw [hf]
  dsimp only []
  rw [hun, hrm]
  rfl

theorem coalesceRight_none_stop {m : RegionMap} {sp : VRange}
    (hf : firstGe m (sp.stop + 1) = none) : coalesceRight m sp = some (m, sp) := by
  unfold coalesceRight
  rw [hf]

theorem coalesceRight_stop {m : RegionMap} {sp : VRange} {e : Nat × AddressRegion}
    (hf : firstGe m (sp.stop + 1) = some e) (hocc : e.2.region.isSome = true) :
    coalesceRight m sp = some (m, sp) := by
  obtain ⟨k1, reg⟩ := e
  obtain ⟨v, hv⟩ := Option.isSome_iff_exists.mp hocc
  unfold coalesceRight
  rw [hf]
  dsimp only []
  rw [hv]
  rfl

theorem coalesceRight_step {m m2 : RegionMap} {sp : VRange} {k1 : Nat}
    {reg v : AddressRegion}
    (hf : firstGe m (sp.stop + 1) = some (k1, reg)) (hun : reg.region = none)
    (hrm : removeTake m k1 = some (v, m2)) :
    coalesceRight m sp = coalesceRight m2 ⟨sp.start, v.span.stop⟩ := by
  conv_lhs => unfold coalesceRight
  rw [hf]
  dsimp only []
  rw [hun, hrm]
  rfl

/-! ## Preservation of the invariant by `free` -/

theorem free_finish {lo hi : Nat} {pre post : RegionMap} {sp : VRange}
    (kd : AddressRegionKind)
    (hchpre : chainB lo sp.start pre = true)
    (hchpost : chainB sp.stop hi post = true)
    (hsp : sp.start < sp.stop)
    (hcpPre : pre.Chain' Compat) (hcpPost : post.Chain' Compat)
    (hlastOcc : ∀ x ∈ pre.getLast?, x.2.region.isSome = true) :
    ∃ m3 sp3, coalesceRight (pre ++ post) sp = some (m3, sp3) ∧
      chainB lo hi (insertKV m3 sp3.stop ⟨none, sp3, kd⟩) = true ∧
      (insertKV m3 sp3.stop ⟨none, sp3, kd⟩).Chain' Compat := by
  have hprekeys : ∀ x ∈ pre, x.1 ≤ sp.start := fun x hx => by
    have := chainB_bounds hchpre x hx; omega
  have hskip : firstGe (pre ++ post) (sp.stop + 1) = firstGe post (sp.stop + 1) :=
    firstGe_append_skip (fun x hx => by have := hprekeys x hx; omega)
  cases post with
  | nil =>
    have hhi : sp.stop = hi := chainB_nil hchpost
    refine ⟨pre ++ [], sp, coalesceRight_none_stop (by rw [hskip]; rfl), ?_, ?_⟩
    · rw [insertKV_append2 pre [] sp.stop _
        (fun x hx => by have := hprekeys x hx; omega) (by simp)]
      exact chainB_append hchpre
        (chainB_cons_iff.mpr ⟨rfl, hsp, rfl, by simp [chainB, hhi]⟩)
    · rw [insertKV_append2 pre [] sp.stop _
        (fun x hx => by have := hprekeys x hx; omega) (by simp)]
      refine List.chain'_append.mpr ⟨hcpPre, by simp, ?_⟩
      intro x hx y hy
      simp only [List.head?_cons, Option.mem_some_iff] at hy
      exact Or.inl (hlastOcc x hx)
  | cons eR post2 =>
    obtain ⟨hR1, hR2, hR3, hR4⟩ := chainB_cons_iff.mp hchpost
    have hfR : firstGe (pre ++ eR :: post2) (sp.stop + 1) = some eR := by
      rw [hskip]; exact firstGe_cons_found (by omega)
    by_cases hocc : eR.2.region.isSome = true
    · -- right neighbor occupied: no absorption
      have ins : insertKV ((pre ++ eR :: post2)) sp.stop (⟨none, sp, kd⟩ : AddressRegion)
          = pre ++ (sp.stop, ⟨none, sp, kd⟩) :: eR :: post2 :=
        insertKV_append2 pre (eR :: post2) sp.stop _
          (fun x hx => by have := hprekeys x hx; omega)
          (fun x hx => by
            rcases List.mem_cons.mp hx with rfl | hx
            · omega
            · have := chainB_keys_lt hR4 x hx; omega)
      refine ⟨pre ++ eR :: post2, sp, coalesceRight_stop hfR hocc, ?_, ?_⟩
      · rw [ins]
        exact chainB_append hchpre
          (chainB_cons_iff.mpr ⟨rfl, hsp, rfl, hchpost⟩)
      · rw [ins]
        refine List.chain'_append.mpr ⟨hcpPre, ?_, ?_⟩
        · exact List.chain'_cons'.mpr ⟨fun y hy => by
            simp only [List.head?_cons, Option.mem_some_iff] at hy
            exact Or.inr (hy ▸ hocc), hcpPost⟩
        · intro x hx y hy
          simp only [List.head?_cons, Option.mem_some_iff] at hy
          exact Or.inl (hlastOcc x hx)
    · -- right neighbor unoccupied: absorb it, then stop
      have hun : eR.2.region = none := Option.not_isSome_iff_eq_none.mp (by simpa using hocc)
      have hrm : removeTake (pre ++ eR :: post2) eR.1 = some (eR.2, pre ++ post2) :=
        removeTake_append (fun x hx => by have := hprekeys x hx; omega)
      have hstep : coalesceRight (pre ++ eR :: post2) sp
          = coalesceRight (pre ++ post2) ⟨sp.start, eR.2.span.stop⟩ :=
        coalesceRight_step hfR hun hrm
      have hskip2 : firstGe (pre ++ post2) (eR.2.span.stop + 1)
          = firstGe post2 (eR.2.span.stop + 1) :=
        firstGe_append_skip (fun x hx => by have := hprekeys x hx; omega)
      cases post2 with
      | nil =>
        have hhi : eR.2.span.stop = hi := chainB_nil hR4
        have ins : insertKV ((pre ++ []) : RegionMap) eR.2.span.stop
            (⟨none, ⟨sp.start, eR.2.span.stop⟩, kd⟩ : AddressRegion)
            = pre ++ (eR.2.span.stop, ⟨none, ⟨sp.start, eR.2.span.stop⟩, kd⟩) :: [] :=
          insertKV_append2 pre [] eR.2.span.stop _
            (fun x hx => by have := hprekeys x hx; omega) (by simp)
        refine ⟨pre ++ [], ⟨sp.start, eR.2.span.stop⟩, ?_, ?_, ?_⟩
        · rw [hstep]; exact coalesceRight_none_stop (by rw [hskip2]; rfl)
        · rw [ins]
          exact chainB_append hchpre
            (chainB_cons_iff.mpr ⟨rfl, by dsimp only; omega, rfl, by simp [chainB, hhi]⟩)
        · rw [ins]
          refine List.chain'_append.mpr ⟨hcpPre, by simp, ?_⟩
          intro x hx y hy
          simp only [List.head?_cons, Option.mem_some_iff] at hy
          exact Or.inl (hlastOcc x hx)
      | cons eR2 post3 =>
        obtain ⟨hS1, hS2, hS3, hS4⟩ := chainB_cons_iff.mp hR4
        have hocc2 : eR2.2.region.isSome = true := by
          rcases (List.chain'_cons'.mp hcpPost).1 eR2 (by simp) with hl | hr
          · rw [hun] at hl; simp at hl
          · exact hr
        have hfR2 : firstGe (pre ++ eR2 :: post3) (eR.2.span.stop + 1) = some eR2 := by
          rw [hskip2]; exact firstGe_cons_found (by omega)
        have ins : insertKV (pre ++ eR2 :: post3) eR.2.span.stop
            (⟨none, ⟨sp.start, eR.2.span.stop⟩, kd⟩ : AddressRegion)
            = pre ++ (eR.2.span.stop, ⟨none, ⟨sp.start, eR.2.span.stop⟩, kd⟩) :: eR2 :: post3 :=
          insertKV_append2 pre (eR2 :: post3) eR.2.span.stop _
            (fun x hx => by have := hprekeys x hx; omega)
            (fun x hx => by
              rcases List.mem_cons.mp hx with rfl | hx
              · omega
              · have := chainB_keys_lt hS4 x hx; omega)
        refine ⟨pre ++ eR2 :: post3, ⟨sp.start, eR.2.span.stop⟩, ?_, ?_, ?_⟩
        · rw [hstep]; exact coalesceRight_stop hfR2 hocc2
        · rw [ins]
          exact chainB_append hchpre
            (chainB_cons_iff.mpr ⟨rfl, by dsimp only; omega, rfl, hR4⟩)
        · rw [ins]
          refine List.chain'_append.mpr ⟨hcpPre, ?_, ?_⟩
          · exact List.chain'_cons'.mpr ⟨fun y hy => by
              simp only [List.head?_cons, Option.mem_some_iff] at hy
              exact Or.inr (hy ▸ hocc2), (List.chain'_cons'.mp hcpPost).2⟩
          · intro x hx y hy
            simp only [List.head?_cons, Option.mem_some_iff] at hy
            exact Or.inl (hlastOcc x hx)

theorem free_left_phase {lo hi : Nat} {pre post : RegionMap} {sp : VRange}
    (hchpre : chainB lo sp.start pre = true)
    (hchpost : chainB sp.stop hi post = true)
    (hsp : sp.start < sp.stop)
    (hcpPre : pre.Chain' Compat) :
    coalesceLeft (pre ++ post) sp = none ∨
    ∃ pre2 sp2, coalesceLeft (pre ++ post) sp = some (pre2 ++ post, sp2) ∧
      sp2.stop = sp.stop ∧ sp2.start ≤ sp.start ∧
      chainB lo sp2.start pre2 = true ∧ pre2.Chain' Compat ∧
      (∀ x ∈ pre2.getLast?, x.2.region.isSome = true) := by
  have hpostkeys : ∀ x ∈ post, sp.stop < x.1 := fun x hx => (chainB_keys_lt hchpost x hx).1
  rcases List.eq_nil_or_concat pre with rfl | ⟨pre0, eL, rfl⟩
  · -- the freed span starts at the bottom of the chain
    have hlo : lo = sp.start := chainB_nil hchpre
    cases post with
    | nil =>
      exact Or.inr ⟨[], sp, coalesceLeft_none_stop rfl, rfl, le_refl _,
        by simp [chainB, hlo], List.chain'_nil, by simp⟩
    | cons eR post2 =>
      have hRk : sp.stop < eR.1 := hpostkeys eR (by simp)
      have hfR : firstGe (([] : RegionMap) ++ eR :: post2) sp.start = some eR :=
        firstGe_cons_found (by omega)
      by_cases hocc : eR.2.region.isSome = true
      · exact Or.inr ⟨[], sp, coalesceLeft_stop hfR hocc, rfl, le_refl _,
          by simp [chainB, hlo], List.chain'_nil, by simp⟩
      · -- the loop guard matches the right neighbor but removes at sp.start: crash
        have hun : eR.2.region = none := Option.not_isSome_iff_eq_none.mp (by simpa using hocc)
        have hrm : removeTake (([] : RegionMap) ++ eR :: post2) sp.start = none :=
          removeTake_none (fun x hx => by
            rcases List.mem_cons.mp hx with rfl | hx
            · omega
            · have := hpostkeys x (by simp [hx]); omega)
        exact Or.inl (coalesceLeft_crash hfR hun hrm)
  · -- there is a region ending exactly at the freed span's start
    rw [List.concat_eq_append] at hchpre hcpPre ⊢
    obtain ⟨eLk, eLr⟩ := eL
    obtain ⟨hL1, hL2, hL3, hL4⟩ := chainB_snoc_iff.mp hchpre
    dsimp only [] at hL1 hL2 hL3 hL4
    have heLk : eLk = sp.start := by omega
    subst heLk
    have hpre0keys : ∀ x ∈ pre0, x.1 ≤ eLr.span.start := fun x hx => by
      have := chainB_bounds hL1 x hx; omega
    have hfL : firstGe ((pre0 ++ [(sp.start, eLr)]) ++ post) sp.start
        = some (sp.start, eLr) := by
      rw [List.append_assoc, firstGe_append_skip (fun x hx => by
        have := hpre0keys x hx; omega)]
      exact firstGe_cons_found (by omega)
    by_cases hocc : eLr.region.isSome = true
    · exact Or.inr ⟨pre0 ++ [(sp.start, eLr)], sp, coalesceLeft_stop hfL hocc, rfl,
        le_refl _, hchpre, hcpPre, fun x hx => by
          rw [List.getLast?_concat] at hx
          simp only [Option.mem_some_iff] at hx
          exact hx ▸ hocc⟩
    · have hun : eLr.region = none := Option.not_isSome_iff_eq_none.mp (by simpa using hocc)
      have hrm : removeTake ((pre0 ++ [(sp.start, eLr)]) ++ post) sp.start
          = some (eLr, pre0 ++ post) := by
        rw [List.append_assoc]
        exact removeTake_append (fun x hx => by have := hpre0keys x hx; omega)
      have hstep : coalesceLeft ((pre0 ++ [(sp.start, eLr)]) ++ post) sp
          = coalesceLeft (pre0 ++ post) ⟨eLr.span.start, sp.stop⟩ :=
        coalesceLeft_step hfL hun hrm
      rcases List.eq_nil_or_concat pre0 with rfl | ⟨pre1, eL2, rfl⟩
      · -- the absorbed neighbor reached the bottom of the chain
        have hlo : lo = eLr.span.start := chainB_nil hL1
        cases post with
        | nil =>
          refine Or.inr ⟨[], ⟨eLr.span.start, sp.stop⟩,
            by rw [hstep]; exact coalesceLeft_none_stop rfl, rfl, by dsimp only; omega,
            by simp [chainB, hlo], List.chain'_nil, by simp⟩
        | cons eR post2 =>
          have hRk : sp.stop < eR.1 := hpostkeys eR (by simp)
          have hfR : firstGe (([] : RegionMap) ++ eR :: post2) eLr.span.start = some eR :=
            firstGe_cons_found (by omega)
          by_cases hocc2 : eR.2.region.isSome = true
          · refine Or.inr ⟨[], ⟨eLr.span.start, sp.stop⟩,
              by rw [hstep]; exact coalesceLeft_stop hfR hocc2, rfl, by dsimp only; omega,
              by simp [chainB, hlo], List.chain'_nil, by simp⟩
          · have hun2 : eR.2.region = none :=
              Option.not_isSome_iff_eq_none.mp (by simpa using hocc2)
            have hrm2 : removeTake (([] : RegionMap) ++ eR :: post2) eLr.span.start = none :=
              removeTake_none (fun x hx => by
                rcases List.mem_cons.mp hx with rfl | hx
                · omega
                · have := hpostkeys x (by simp [hx]); omega)
            exact Or.inl (by rw [hstep]; exact coalesceLeft_crash hfR hun2 hrm2)
      · -- the next region to the left is occupied (no two adjacent unoccupied)
        simp only [List.concat_eq_append] at hL1 hcpPre hstep hchpre hpre0keys ⊢
        obtain ⟨hM1, hM2, hM3, hM4⟩ := chainB_snoc_iff.mp hL1
        have hocc2 : eL2.2.region.isSome = true := by
          have hcompat := (List.chain'_append.mp hcpPre).2.2 eL2
            (by rw [List.getLast?_concat]; rfl) (sp.start, eLr) (by simp)
          rcases hcompat with hl | hr
          · exact hl
          · rw [hun] at hr; simp at hr
        have hfL2 : firstGe ((pre1 ++ [eL2]) ++ post) eLr.span.start = some eL2 := by
          rw [List.append_assoc, firstGe_append_skip (fun x hx => by
            have := chainB_bounds hM1 x hx; omega)]
          exact firstGe_cons_found (by omega)
        refine Or.inr ⟨pre1 ++ [eL2], ⟨eLr.span.start, sp.stop⟩,
          by rw [hstep]; exact coalesceLeft_stop hfL2 hocc2, rfl, by dsimp only; omega,
          hL1, (List.chain'_append.mp hcpPre).1, fun x hx => by
            rw [List.getLast?_concat] at hx
            simp only [Option.mem_some_iff] at hx
            exact hx ▸ hocc2⟩

theorem free_ok_inv {R : VRange} {m : AddressMap} {rg : VRange} {ret : MemoryRegion}
    {m2 : AddressMap} (hInv : Inv R m)
    (h : AddressMap.free m rg = .ok ret m2) : Inv R m2 := by
  obtain ⟨hch, hcp⟩ := hInv
  unfold AddressMap.free at h
  cases hfg : firstGe m.map rg.stop with
  | none => rw [hfg] at h; simp at h
  | some e =>
    obtain ⟨k0, curr⟩ := e
    rw [hfg] at h
    dsimp only [] at h
    by_cases hguard : curr.span.start ≠ rg.start ∨ curr.span.stop ≠ rg.stop ∨
        curr.region.isNone = true
    · rw [if_pos hguard] at h; simp at h
    · rw [if_neg hguard] at h
      push_neg at hguard
      obtain ⟨hA, hB, hOcc⟩ := hguard
      have hOcc' : curr.region.isSome = true := by
        cases hcurr : curr.region with
        | none => rw [hcurr] at hOcc; simp at hOcc
        | some v => simp
      obtain ⟨pre, post, hsplit, hchpre, hproper, hkey, hchpost, hprelt, hkle⟩ :=
        chainB_decomp hch hfg
      have hk0 : k0 = rg.stop := by omega
      subst hk0
      have hne : ∀ x ∈ pre, x.1 ≠ rg.stop := fun x hx => by have := hprelt x hx; omega
      rw [hsplit] at h hcp
      rw [removeTake_append hne] at h
      dsimp only [] at h
      have hcpPre : pre.Chain' Compat := (List.chain'_append.mp hcp).1
      have hcpPost : post.Chain' Compat :=
        (List.chain'_cons'.mp (List.chain'_append.mp hcp).2.1).2
      rcases free_left_phase hchpre hchpost hproper hcpPre with hcl | ⟨pre2, sp2, heq,
        hstop2, hstart2, hch2, hcp2, hlast2⟩
      · rw [hcl] at h; simp at h
      · rw [heq] at h
        dsimp only [] at h
        obtain ⟨m3, sp3, heqR, hchF, hcpF⟩ := free_finish curr.kind hch2
          (by rw [hstop2]; exact hchpost) (by omega) hcp2 hcpPost hlast2
        rw [heqR] at h
        dsimp only [] at h
        obtain ⟨rv, hrv⟩ := Option.isSome_iff_exists.mp hOcc'
        rw [hrv] at h
        dsimp only [] at h
        rw [FreeResult.ok.injEq] at h
        obtain ⟨-, h2⟩ := h
        subst h2
        exact ⟨hchF, hcpF⟩

theorem reaches_inv {R : VRange} {m : AddressMap} (hR : R.start < R.stop)
    (h : Reaches R m) : Inv R m := by
  induction h with
  | init =>
    constructor
    · simp [AddressMap.mkNew, insertKV, chainB, hR]
    · simp [AddressMap.mkNew, insertKV]
  | allocStep m s b k m2 hr hs hok ih => exact alloc_ok_inv ih hs hok
  | freeStep m rg b m2 hr hok ih => exact free_ok_inv ih hok

/-! ## Claim C3 (amended): the partition invariant for proper requests -/

/-- C3 (amended): starting from `AddressMap::new` over a proper complete
range, after any sequence of `alloc`/`free` calls that return in which
every `alloc` range is proper, the map's regions cover every address of
the range, are pairwise disjoint (in key order each span ends before the
next begins, so no two regions — in particular no two occupied regions —
overlap), and stay inside the range. -/
theorem partition_invariant (R : VRange) (m : AddressMap) (hR : R.start < R.stop)
    (h : Reaches R m) :
    (∀ a, R.start ≤ a → a < R.stop →
      ∃ e ∈ m.map, e.2.span.start ≤ a ∧ a < e.2.span.stop) ∧
    m.map.Pairwise (fun e f => e.2.span.stop ≤ f.2.span.start) ∧
    (∀ e ∈ m.map, R.start ≤ e.2.span.start ∧ e.2.span.stop ≤ R.stop) := by
  obtain ⟨hch, -⟩ := reaches_inv hR h
  refine ⟨chainB_cover hch, chainB_pairwise hch, fun e he => ?_⟩
  have hb := chainB_bounds hch e he
  exact ⟨hb.1, hb.2.2.2⟩

/-- Witness for C3 at the initial state over the userspace range. -/
theorem partition_invariant_witness :
    (AddressMap.new).map.Pairwise (fun e f => e.2.span.stop ≤ f.2.span.start) :=
  (partition_invariant userspace_range AddressMap.new (by decide) Reaches.init).2.1

/-! ## Claim C4 (amended): `find` characterization -/

/-- C4 (amended): on an invariant-satisfying map, `find` returns the
region with the smallest span end ≥ the address: the unique region `e`
with `e.span.start < address ≤ e.span.end` when one exists (so strictly
interior addresses get the containing region, while a region's start
boundary gets the preceding region, whose half-open span excludes the
address); at the userspace start it returns the first region; and it
returns `None` exactly for addresses strictly past the userspace end. -/
theorem find_characterization (R : VRange) (m : AddressMap) (hR : R.start < R.stop)
    (hInv : Inv R m) (a : Nat) :
    (∀ e ∈ m.map, e.2.span.start < a → a ≤ e.2.span.stop →
      AddressMap.find m a = some e.2) ∧
    AddressMap.find m R.start = m.map.head?.map (·.2) ∧
    (R.stop < a → AddressMap.find m a = none) := by
  obtain ⟨hch, -⟩ := hInv
  refine ⟨?_, ?_, ?_⟩
  · intro e he hlt hle
    obtain ⟨pre, post, hmm⟩ := List.append_of_mem he
    rw [hmm] at hch
    obtain ⟨hpre, hproper, hkey, hpost⟩ := chainB_of_append hch
    unfold AddressMap.find
    rw [hmm, firstGe_append_skip (fun x hx => by have := chainB_bounds hpre x hx; omega),
      firstGe_cons_found (by omega)]
    rfl
  · unfold AddressMap.find
    cases hm : m.map with
    | nil => rw [hm] at hch; have := chainB_nil hch; omega
    | cons e rest =>
      rw [hm] at hch
      obtain ⟨h1, h2, h3, h4⟩ := chainB_cons_iff.mp hch
      rw [firstGe_cons_found (by omega)]
      rfl
  · intro hgt
    unfold AddressMap.find
    rw [firstGe_none (fun x hx => by have := chainB_keys_lt hch x hx; omega)]
    rfl

/-- Witness for C4: in `allocScenarioMap`, the interior address `0x2000`
is found in the containing occupied region. -/
theorem find_characterization_witness :
    AddressMap.find allocScenarioMap 0x2000 = some ⟨some 7, ⟨0x1000, 0x3000⟩, .stack⟩ :=
  (find_characterization userspace_range allocScenarioMap (by decide)
    ⟨by decide, chain'_compat_of_noAdjB (by decide)⟩ 0x2000).1
    (0x3000, ⟨some 7, ⟨0x1000, 0x3000⟩, .stack⟩) (by decide) (by decide) (by decide)

/-! ## Claim C5: the error cases of `alloc` and `free` -/

/-- C5: on an invariant-satisfying map, `alloc` of a range that overlaps
an occupied region, or that no region's span encloses, returns `Err` with
the map unchanged; and `free` of a range that is not exactly the span of
an occupied region returns `Err` with the map unchanged. -/
theorem alloc_free_error_cases (R : VRange) (m : AddressMap) (hInv : Inv R m)
    (s rg : VRange) (b : MemoryRegion) (kd : AddressRegionKind) :
    (((∃ e ∈ m.map, e.2.region.isSome = true ∧
          e.2.span.start < s.stop ∧ s.start < e.2.span.stop) ∨
      ¬ ∃ e ∈ m.map, e.2.span.start ≤ s.start ∧ s.stop ≤ e.2.span.stop) →
      AddressMap.alloc m s b kd = .err m) ∧
    ((¬ ∃ e ∈ m.map, e.2.region.isSome = true ∧ e.2.span = rg) →
      AddressMap.free m rg = .err m) := by
  obtain ⟨hch, hcp⟩ := hInv
  constructor
  · intro hcond
    unfold AddressMap.alloc
    cases hfg : firstGe m.map s.stop with
    | none => rfl
    | some e =>
      obtain ⟨key, r⟩ := e
      dsimp only []
      have hg : r.span.start > s.start ∨ r.span.stop < s.stop ∨ r.region.isSome = true := by
        by_contra hng
        push_neg at hng
        obtain ⟨h1, h2, h3⟩ := hng
        have hrnone : r.region = none := Option.not_isSome_iff_eq_none.mp (by simpa using h3)
        rcases hcond with ⟨e2, he2, heOcc, hov1, hov2⟩ | hnex
        · obtain ⟨pre, post, hsplit, hchpre, hproper, hkey, hchpost, -, -⟩ :=
            chainB_decomp hch hfg
          rw [hsplit] at he2
          rcases List.mem_append.mp he2 with hepre | hecons
          · have hb := chainB_bounds hchpre e2 hepre
            omega
          · rcases List.mem_cons.mp hecons with rfl | hepost
            · rw [hrnone] at heOcc; simp at heOcc
            · have hb := chainB_bounds hchpost e2 hepost
              omega
        · exact hnex ⟨(key, r), firstGe_mem hfg, h1, h2⟩
      rw [if_pos hg]
  · intro hnex
    unfold AddressMap.free
    cases hfg : firstGe m.map rg.stop with
    | none => rfl
    | some e =>
      obtain ⟨k0, curr⟩ := e
      dsimp only []
      have hg : curr.span.start ≠ rg.start ∨ curr.span.stop ≠ rg.stop ∨
          curr.region.isNone = true := by
        by_contra hng
        push_neg at hng
        obtain ⟨h1, h2, h3⟩ := hng
        have hOcc : curr.region.isSome = true := by
          cases hc : curr.region with
          | none => rw [hc] at h3; simp at h3
          | some v => simp
        have hspan : curr.span = rg :=
          calc curr.span = ⟨curr.span.start, curr.span.stop⟩ := rfl
          _ = ⟨rg.start, rg.stop⟩ := by rw [h1, h2]
          _ = rg := rfl
        exact hnex ⟨(k0, curr), firstGe_mem hfg, hOcc, hspan⟩
      rw [if_pos hg]

/-- Witness for C5 at concrete inputs on `allocScenarioMap`: allocating a
range overlapping the occupied region fails, and freeing a non-exact
range fails, both leaving the map unchanged. -/
theorem alloc_free_error_cases_witness :
    AddressMap.alloc allocScenarioMap ⟨0x1500, 0x2000⟩ 9 .data = .err allocScenarioMap ∧
    AddressMap.free allocScenarioMap ⟨0x0, 0x800⟩ = .err allocScenarioMap :=
  ⟨(alloc_free_error_cases userspace_range allocScenarioMap
      ⟨by decide, chain'_compat_of_noAdjB (by decide)⟩
      ⟨0x1500, 0x2000⟩ ⟨0x0, 0x800⟩ 9 .data).1 (Or.inl (by decide)),
   (alloc_free_error_cases userspace_range allocScenarioMap
      ⟨by decide, chain'_compat_of_noAdjB (by decide)⟩
      ⟨0x1500, 0x2000⟩ ⟨0x0, 0x800⟩ 9 .data).2 (by decide)⟩

end Vanadinite
